import Mathlib

/-!
Verification of the core data-processing logic of the Arduino data-logger
application `ver8.py`: the sliding-window sigma filter, the moving-average
smoother, the experiment store with its CSV save/load round-trip, the
stop-experiment summary, and the nearest-point hover query of the plot.

Python floats are modelled as rationals (`ℚ`); all arithmetic on the
modelled code paths is exact field arithmetic except the square roots
inside `statistics.pstdev` and `math.hypot`.  A comparison against such a
square root is embedded by comparing squares, which is equivalent for
nonnegative operands; the bridge to the real-valued formulation with
`Real.sqrt` is proved wherever a claim speaks of the standard deviation or
the Euclidean distance itself.  `float("nan")` is modelled by `Option.none`.
-/

namespace ArduinoLogger

/-- `statistics.mean`: sum divided by length (the `q / 0 = 0` convention is
never reached on the guarded paths, which check the length first). -/
def listMean (l : List ℚ) : ℚ := l.sum / l.length

/-- Population variance, the square of `statistics.pstdev` (divisor = the
window size, not size − 1).  The source computes `std = sqrt` of this and
uses `std` only in the tests `std == 0` and `abs(x - mean) > k * std`;
both tests are embedded on the squares, which is exactly equivalent for
the nonnegative `k` the program uses. -/
def pvariance (l : List ℚ) : ℚ :=
  (l.map (fun x => (x - listMean l) ^ 2)).sum / l.length

/-- The Python slice `values[-w:]` with `w = min(window_size, len(values))`
(`ver8.py` lines 42–43).  For `w = 0` — reachable only when
`window_size = 0` or `values = []` — Python's `values[-0:]` is the whole
list. -/
def sliceLastW (values : List ℚ) (window_size : ℕ) : List ℚ :=
  let w := min window_size values.length
  if w = 0 then values else values.drop (values.length - w)

/-- `sigma_filter_last(values, window_size=10, k=3.0)` from `ver8.py`
lines 28–56.  `none` models the `float("nan")` returned for an empty
input; `values.getLastD 0` is Python's `values[-1]` (the default is never
used: every branch that reads it has `values` nonempty).  The outlier test
`abs(x - mean) > k * std` is embedded as `k ^ 2 * var < (x - mean) ^ 2`. -/
def sigma_filter_last (values : List ℚ) (window_size : ℕ := 10)
    (k : ℚ := 3) : Option ℚ :=
  if values.isEmpty then none
  else
    let window := sliceLastW values window_size
    if window.length < 2 then some (values.getLastD 0)
    else
      let mean := listMean window
      let var := pvariance window
      if var = 0 then some (values.getLastD 0)
      else
        let x := values.getLastD 0
        if k ^ 2 * var < (x - mean) ^ 2 then some mean else some x

/-- The window exactly as the specification words it: the last
`min(window_size, len(history))` elements of the history.  It agrees with
the source's slice `sliceLastW` whenever `1 ≤ window_size`. -/
def windowSpec (values : List ℚ) (window_size : ℕ) : List ℚ :=
  values.drop (values.length - min window_size values.length)

theorem sliceLastW_eq_windowSpec (values : List ℚ) (window_size : ℕ)
    (hws : 1 ≤ window_size) : sliceLastW values window_size = windowSpec values window_size := by
  rcases values with _ | ⟨v, vs⟩
  · simp [sliceLastW, windowSpec]
  · have h : min window_size (v :: vs).length ≠ 0 := by
      simp only [List.length_cons]
      omega
    simp only [sliceLastW, windowSpec]
    rw [if_neg h]

theorem pvariance_nonneg (l : List ℚ) : 0 ≤ pvariance l := by
  unfold pvariance
  apply div_nonneg
  · apply List.sum_nonneg
    intro x hx
    simp only [List.mem_map] at hx
    obtain ⟨y, _, rfl⟩ := hx
    positivity
  · exact_mod_cast Nat.zero_le _

/-- The squared outlier test used in the embedding is equivalent to the
source's test on the standard deviation, for nonnegative `k`. -/
theorem sq_test_iff_sqrt_test (k v a : ℚ) (hk : 0 ≤ k) (hv : 0 ≤ v) :
    k ^ 2 * v < a ^ 2 ↔ (k : ℝ) * Real.sqrt (v : ℝ) < |(a : ℝ)| := by
  have hv' : (0 : ℝ) ≤ (v : ℝ) := by exact_mod_cast hv
  have hk' : (0 : ℝ) ≤ (k : ℝ) := by exact_mod_cast hk
  have h1 : (k : ℝ) * Real.sqrt (v : ℝ) = Real.sqrt ((k : ℝ) ^ 2 * (v : ℝ)) := by
    rw [Real.sqrt_mul (by positivity), Real.sqrt_sq hk']
  have h2 : |(a : ℝ)| = Real.sqrt ((a : ℝ) ^ 2) := (Real.sqrt_sq_eq_abs _).symm
  rw [h1, h2, Real.sqrt_lt_sqrt_iff (by positivity)]
  constructor
  · intro h
    exact_mod_cast h
  · intro h
    exact_mod_cast h

/-- Unfolding of `sigma_filter_last` on a nonempty history, as a chain of
the source's three guards. -/
theorem sigma_filter_last_eq (values : List ℚ) (window_size : ℕ) (k : ℚ)
    (hne : values ≠ []) :
    sigma_filter_last values window_size k =
      (if (sliceLastW values window_size).length < 2 then some (values.getLastD 0)
       else if pvariance (sliceLastW values window_size) = 0 then some (values.getLastD 0)
       else if k ^ 2 * pvariance (sliceLastW values window_size) <
           (values.getLastD 0 - listMean (sliceLastW values window_size)) ^ 2 then
         some (listMean (sliceLastW values window_size))
       else some (values.getLastD 0)) := by
  have hemp : values.isEmpty = false := by
    rcases values with _ | ⟨v, vs⟩
    · exact absurd rfl hne
    · rfl
  unfold sigma_filter_last
  rw [hemp]
  rfl

/-- C1: for a non-empty history, with window the last
`min(window_size, len(history))` elements: when the window has at least two
elements and its population standard deviation is nonzero, the filter
returns the window mean if `|candidate − mean| > k·std` and the candidate
unchanged otherwise; when the window has fewer than two elements or the
standard deviation is zero, it returns the candidate unchanged. -/
theorem sigma_filter_last_spec (values : List ℚ) (window_size : ℕ) (k : ℚ)
    (hne : values ≠ []) (hws : 1 ≤ window_size) (hk : 0 ≤ k) :
    (2 ≤ (windowSpec values window_size).length →
      Real.sqrt ((pvariance (windowSpec values window_size) : ℝ)) ≠ 0 →
      (((k : ℝ) * Real.sqrt ((pvariance (windowSpec values window_size) : ℝ)) <
          |(values.getLastD 0 : ℝ) - (listMean (windowSpec values window_size) : ℝ)| →
          sigma_filter_last values window_size k =
            some (listMean (windowSpec values window_size))) ∧
        (¬ (k : ℝ) * Real.sqrt ((pvariance (windowSpec values window_size) : ℝ)) <
            |(values.getLastD 0 : ℝ) - (listMean (windowSpec values window_size) : ℝ)| →
          sigma_filter_last values window_size k = some (values.getLastD 0)))) ∧
    ((windowSpec values window_size).length < 2 ∨
        Real.sqrt ((pvariance (windowSpec values window_size) : ℝ)) = 0 →
      sigma_filter_last values window_size k = some (values.getLastD 0)) := by
  have hslice : sliceLastW values window_size = windowSpec values window_size :=
    sliceLastW_eq_windowSpec values window_size hws
  have heq := sigma_filter_last_eq values window_size k hne
  rw [hslice] at heq
  set W := windowSpec values window_size with hWdef
  have hv0 : 0 ≤ pvariance W := pvariance_nonneg W
  have hstd0 : Real.sqrt ((pvariance W : ℝ)) = 0 ↔ pvariance W = 0 := by
    rw [Real.sqrt_eq_zero (by exact_mod_cast hv0)]
    exact_mod_cast Iff.rfl
  have hbridge : k ^ 2 * pvariance W < (values.getLastD 0 - listMean W) ^ 2 ↔
      (k : ℝ) * Real.sqrt ((pvariance W : ℝ)) <
        |(values.getLastD 0 : ℝ) - (listMean W : ℝ)| := by
    have h := sq_test_iff_sqrt_test k (pvariance W) (values.getLastD 0 - listMean W) hk hv0
    rw [h]
    push_cast
    exact Iff.rfl
  refine ⟨?_, ?_⟩
  · intro h2 hstd
    have hvar : pvariance W ≠ 0 := fun h => hstd (hstd0.mpr h)
    have hnlt : ¬ W.length < 2 := by omega
    rw [heq, if_neg hnlt, if_neg hvar]
    constructor
    · intro hcond
      rw [if_pos (hbridge.mpr hcond)]
    · intro hcond
      rw [if_neg (fun h => hcond (hbridge.mp h))]
  · intro h
    rcases h with hlen | hstd
    · rw [heq, if_pos hlen]
    · have hvar : pvariance W = 0 := hstd0.mp hstd
      by_cases hlen : W.length < 2
      · rw [heq, if_pos hlen]
      · rw [heq, if_neg hlen, if_pos hvar]

/-- Witness for C1 at the concrete history `[0, 2]` with `window_size = 10`
and `k = 3`: the window is `[0, 2]`, `mean = 1`, `std = 1 ≠ 0`,
`|2 − 1| = 1 ≤ 3·1`, so the candidate `2` is returned unchanged. -/
theorem sigma_filter_last_spec_witness :
    sigma_filter_last [0, 2] 10 3 = some 2 := by
  have h := sigma_filter_last_spec [0, 2] 10 3 (by simp) (by norm_num) (by norm_num)
  have hW : windowSpec [(0 : ℚ), 2] 10 = [0, 2] := by norm_num [windowSpec]
  have hvar : pvariance (windowSpec [(0 : ℚ), 2] 10) = 1 := by
    norm_num [pvariance, windowSpec, listMean]
  have hmean : listMean (windowSpec [(0 : ℚ), 2] 10) = 1 := by
    norm_num [windowSpec, listMean]
  have hlast : [(0 : ℚ), 2].getLastD 0 = 2 := by norm_num
  have hsqrt : Real.sqrt ((pvariance (windowSpec [(0 : ℚ), 2] 10) : ℝ)) = 1 := by
    rw [hvar]
    norm_num
  have hlen : 2 ≤ (windowSpec [(0 : ℚ), 2] 10).length := by rw [hW]; norm_num
  have hstd : Real.sqrt ((pvariance (windowSpec [(0 : ℚ), 2] 10) : ℝ)) ≠ 0 := by
    rw [hsqrt]; norm_num
  have h2 := (h.1 hlen hstd).2 (by rw [hsqrt, hmean, hlast]; norm_num)
  rw [hlast] at h2
  exact h2

/-- C2 counterexample: for the history `[10,10,10,10,10,100]` with
`window_size = 10`, `k = 3`, the code does NOT return the window mean
(which is `150/6 = 25`, not `≈ 21.67`): `|100 − 25| = 75` does not exceed
`3·σ = √10125 ≈ 100.62`, so `100` is not classified an outlier. -/
theorem sigma_filter_example_ne_mean :
    sigma_filter_last [10, 10, 10, 10, 10, 100] 10 3 ≠
      some (listMean (windowSpec [10, 10, 10, 10, 10, 100] 10)) := by
  norm_num [sigma_filter_last, sliceLastW, windowSpec, pvariance, listMean]

/-- C2 amended: for the history `[10,10,10,10,10,100]` with
`window_size = 10`, `k = 3`, the filter returns the candidate `100`
unchanged: the window is the whole history, its mean is `150/6 = 25` and
its population variance is `(5·15² + 75²)/6 = 1125`, so
`|100 − 25| = 75` is not greater than `3·σ = √10125 ≈ 100.62`
(equivalently `75² = 5625 ≤ 9·1125 = 10125`). -/
theorem sigma_filter_example_returns_candidate :
    sigma_filter_last [10, 10, 10, 10, 10, 100] 10 3 = some 100 ∧
    listMean (windowSpec [10, 10, 10, 10, 10, 100] 10) = 25 ∧
    pvariance (windowSpec [10, 10, 10, 10, 10, 100] 10) = 1125 := by
  refine ⟨?_, ?_, ?_⟩
  · norm_num [sigma_filter_last, sliceLastW, pvariance, listMean]
  · norm_num [windowSpec, listMean]
  · norm_num [windowSpec, pvariance, listMean]

/-- C10: `sigma_filter_last` is total on all inputs; called on the empty
history (violating the caller contract) it returns `float("nan")` —
modelled as `none` — rather than raising an exception. -/
theorem sigma_filter_last_empty_nan (window_size : ℕ) (k : ℚ) :
    sigma_filter_last [] window_size k = none := rfl

/-! ## The experiment store and CSV persistence

`self.experiments : Dict[int, List[Tuple[float, float]]]` is modelled as an
insertion-ordered association list with `Nodup` keys (Python dicts preserve
insertion order; `setdefault` appends a fresh key at the end).  A CSV field
is modelled at the granularity the load path distinguishes: a field
`Э<id>` that `int(field.lstrip("Ээ"))` parses (`Field.eLabel`), a field
that `float(field)` parses (`Field.num` — Python's `float → str → float`
round-trip is exact, so the value is carried directly), and any other text
(`Field.raw`, e.g. the header words or the human-readable date column). -/

/-- A stored sample: `(timestamp, value)`. -/
abbrev Sample := ℚ × ℚ

/-- The in-memory experiment store. -/
abbrev Store := List (ℤ × List Sample)

inductive Field where
  /-- A field of shape `Э<n>`, parsed by `int(row[0].lstrip("Ээ"))`. -/
  | eLabel (n : ℤ)
  /-- A field parsed by `float(...)` to the value `q`. -/
  | num (q : ℚ)
  /-- Any field parsing as neither (header text, date-time, garbage). -/
  | raw
deriving DecidableEq

/-- A CSV row is its list of fields. -/
abbrev Row := List Field

/-- `int(field.lstrip("Ээ"))`, as used on the experiment column. -/
def parseExpField : Field → Option ℤ
  | .eLabel n => some n
  | _ => none

/-- `float(field)`, as used on the time and value columns. -/
def parseFloatField : Field → Option ℚ
  | .num q => some q
  | _ => none

/-- Dictionary lookup `experiments[j]` (as an `Option`). -/
def lookupStore : Store → ℤ → Option (List Sample)
  | [], _ => none
  | (k, l) :: rest, j => if k = j then some l else lookupStore rest j

/-- `experiments.get(j, [])`. -/
def getDStore (st : Store) (j : ℤ) : List Sample := (lookupStore st j).getD []

/-- `experiments.keys()` in insertion order. -/
def idsOf (st : Store) : List ℤ := st.map Prod.fst

/-- `experiments.setdefault(k, []).append(s)`: append `s` to the sequence of
`k`, creating the entry at the end of the dict when `k` is new. -/
def setdefaultAppend (st : Store) (k : ℤ) (s : Sample) : Store :=
  match st with
  | [] => [(k, [s])]
  | (k', l) :: rest =>
      if k' = k then (k', l ++ [s]) :: rest else (k', l) :: setdefaultAppend rest k s

/-- The header row written by `save_all_data`; none of its fields parse. -/
def headerRow : Row := [Field.raw, Field.raw, Field.raw, Field.raw]

/-- One data row written by `save_all_data` for a sample of experiment `k`:
`[f"Э{k}", timestamp, value, date_string]`. -/
def rowOf (k : ℤ) (s : Sample) : Row :=
  [Field.eLabel k, Field.num s.1, Field.num s.2, Field.raw]

/-- The rows written by `save_all_data` (`ver8.py` lines 371–396): a header
row, then every sample of every experiment, experiments in sorted id
order, samples in stored order. -/
def save_all_data (st : Store) : List Row :=
  headerRow ::
    (List.insertionSort (· ≤ ·) (idsOf st)).flatMap
      (fun k => (getDStore st k).map (rowOf k))

/-- The body of the row loop of `open_data` (`ver8.py` lines 412–424),
acting on the state `(experiments, current_experiment)`: skip rows with
fewer than three fields, skip rows where any of the three parses fails
(`except ValueError: continue`), otherwise `setdefault`-append the sample
and bump `current_experiment` to `exp_num + 1` when `exp_num` is not below
it. -/
def loadRow (acc : Store × ℤ) (row : Row) : Store × ℤ :=
  if row.length < 3 then acc
  else
    match parseExpField (row.getD 0 .raw), parseFloatField (row.getD 1 .raw),
        parseFloatField (row.getD 2 .raw) with
    | some e, some t, some v =>
        (setdefaultAppend acc.1 e (t, v), if acc.2 ≤ e then e + 1 else acc.2)
    | _, _, _ => acc

/-- Folding the row loop from the cleared state `({}, 1)`. -/
def loadRows (rows : List Row) : Store × ℤ := rows.foldl loadRow ([], 1)

/-- `open_data` on a readable file (`ver8.py` lines 405–424): the store is
cleared, `current_experiment` reset to `1`, the first row consumed as the
header (`next(reader, None)`), and the remaining rows folded. -/
def open_data (rows : List Row) : Store × ℤ := loadRows (rows.drop 1)

/-- The full effect of `open_data` on `(experiments, current_experiment)`,
with `none` modelling an unreadable file: `experiments.clear()` and
`current_experiment = 1` run inside the `try` BEFORE the file is opened, so
when opening raises, the handler only shows an error box and the state
stays cleared — the previous state `prev` is discarded on every path. -/
def open_data_full (file : Option (List Row)) (_prev : Store × ℤ) : Store × ℤ :=
  match file with
  | none => ([], 1)
  | some rows => open_data rows

/-- The store effect of `start_experiment` (`ver8.py` lines 221–223):
`if cur not in experiments: experiments[cur] = []` — the entry is created
eagerly, before any sample is collected. -/
def start_experiment_store (st : Store) (cur : ℤ) : Store :=
  if (lookupStore st cur).isSome then st else st ++ [(cur, [])]

/-- The store effect of one accepted sample in `collect_data` (`ver8.py`
lines 319–328): history = past stored values plus the raw value, filter,
append `(timestamp, filtered)`.  The code indexes `experiments[cur]`
directly (present because `start_experiment` ran); `getDStore` and the
`getD value` default are never exercised off that path, and the history is
nonempty by construction so the filter never yields `none`. -/
def collect_data_step (st : Store) (cur : ℤ) (timestamp value : ℚ) : Store :=
  let exp_list := getDStore st cur
  let raw_values := exp_list.map Prod.snd ++ [value]
  let filtered_value := (sigma_filter_last raw_values 10 3).getD value
  setdefaultAppend st cur (timestamp, filtered_value)

/-- The summary computed by `stop_experiment` (`ver8.py` lines 275–289):
`data = experiments.get(cur, [])`; only `if data:` (nonempty) are the
count and the mean `sum(values)/count` computed and logged. -/
def stop_experiment_summary (st : Store) (cur : ℤ) : Option (ℕ × ℚ) :=
  let data := getDStore st cur
  if data.isEmpty then none
  else
    let values := data.map Prod.snd
    some (values.length, values.sum / (values.length : ℚ))

/-- A data row that `open_data` accepts: at least three fields, the first
parsing as an experiment label, the second and third as floats. -/
def wellFormedRow (row : Row) : Bool :=
  decide (3 ≤ row.length) && (parseExpField (row.getD 0 .raw)).isSome &&
    (parseFloatField (row.getD 1 .raw)).isSome &&
    (parseFloatField (row.getD 2 .raw)).isSome

/-- Total number of stored samples. -/
def storeSize (st : Store) : ℕ := (st.map fun p => p.2.length).sum

/-- The largest experiment id (`0` for an empty store; the claims use it
on stores with positive ids, where it is the true maximum). -/
def maxId (st : Store) : ℤ := (idsOf st).foldr max 0

theorem lookupStore_none_iff (st : Store) (j : ℤ) :
    lookupStore st j = none ↔ j ∉ idsOf st := by
  induction st with
  | nil => simp [lookupStore, idsOf]
  | cons p rest ih =>
    obtain ⟨k, l⟩ := p
    by_cases h : k = j
    · subst h
      simp [lookupStore, idsOf]
    · simp [lookupStore, h, idsOf, ih]
      tauto

theorem lookupStore_append_new (st : Store) (cur : ℤ) (l : List Sample)
    (h : lookupStore st cur = none) :
    lookupStore (st ++ [(cur, l)]) cur = some l := by
  induction st with
  | nil => simp [lookupStore]
  | cons p rest ih =>
    obtain ⟨k, l'⟩ := p
    by_cases hk : k = cur
    · subst hk
      simp [lookupStore] at h
    · simp only [lookupStore, if_neg hk] at h
      simp only [List.cons_append, lookupStore, if_neg hk]
      exact ih h

theorem lookupStore_setdefaultAppend_self (st : Store) (k : ℤ) (s : Sample) :
    lookupStore (setdefaultAppend st k s) k = some (getDStore st k ++ [s]) := by
  induction st with
  | nil => simp [setdefaultAppend, lookupStore, getDStore]
  | cons p rest ih =>
    obtain ⟨k', l⟩ := p
    by_cases hk : k' = k
    · subst hk
      simp [setdefaultAppend, lookupStore, getDStore]
    · simp [setdefaultAppend, hk, lookupStore, getDStore, ih]

/-- C5 counterexample: starting recording on a store not yet containing the
current experiment id immediately creates an entry mapping that id to the
EMPTY sequence — before any sample has been accepted — so the sequence is
not created lazily on the first accepted sample. -/
theorem start_experiment_creates_empty_entry :
    lookupStore (start_experiment_store [] 1) 1 = some [] := rfl

/-- C5 amended: the entry for the active experiment is created eagerly when
recording starts: `start_experiment` inserts an empty sequence for the
current id when absent (and leaves an existing one alone), and each
accepted sample in `collect_data` then appends exactly one sample to it. -/
theorem start_experiment_store_spec (st : Store) (cur : ℤ) (t v : ℚ) :
    lookupStore (start_experiment_store st cur) cur = some (getDStore st cur) ∧
    (lookupStore st cur = none →
      lookupStore (start_experiment_store st cur) cur = some []) ∧
    (getDStore (collect_data_step (start_experiment_store st cur) cur t v) cur).length =
      (getDStore st cur).length + 1 := by
  have hmain : lookupStore (start_experiment_store st cur) cur = some (getDStore st cur) := by
    unfold start_experiment_store
    by_cases h : (lookupStore st cur).isSome
    · obtain ⟨l, hl⟩ := Option.isSome_iff_exists.mp h
      simp [h, hl, getDStore]
    · have hn : lookupStore st cur = none := Option.not_isSome_iff_eq_none.mp h
      rw [if_neg (by simp [hn])]
      rw [lookupStore_append_new st cur [] hn]
      simp [getDStore, hn]
  refine ⟨hmain, ?_, ?_⟩
  · intro hn
    rw [hmain]
    simp [getDStore, hn]
  · have hgd : getDStore (start_experiment_store st cur) cur = getDStore st cur := by
      simp [getDStore, hmain]
    simp only [collect_data_step]
    simp only [getDStore, lookupStore_setdefaultAppend_self, Option.getD_some,
      List.length_append, List.length_cons, List.length_nil]
    rw [← getDStore, hgd]
    simp [getDStore]

/-- Witness for C5's amended statement on the fresh store: after starting
experiment 1 on an empty store its entry is the empty sequence, and one
accepted sample brings its length to one. -/
theorem start_experiment_store_spec_witness :
    lookupStore (start_experiment_store [] 1) 1 = some (getDStore [] 1) ∧
    (getDStore (collect_data_step (start_experiment_store [] 1) 1 0 5) 1).length =
      (getDStore [] 1).length + 1 := by
  have h := start_experiment_store_spec [] 1 0 5
  exact ⟨h.1, h.2.2⟩

/-- C6 counterexample: with previous store `{1: [(0, 5)]}` and active id
`2`, a failed load (unreadable file) leaves the store EMPTY with active id
`1` — `experiments.clear()` and the reset of `current_experiment` run
before the file is opened, so the previous content is NOT preserved. -/
theorem open_data_failure_not_atomic :
    open_data_full none ([(1, [((0 : ℚ), (5 : ℚ))])], 2) = ([], 1) ∧
    open_data_full none ([(1, [((0 : ℚ), (5 : ℚ))])], 2) ≠
      ([(1, [((0 : ℚ), (5 : ℚ))])], 2) := by
  refine ⟨rfl, ?_⟩
  simp [open_data_full]

/-- C6 amended: load-from-file is NOT atomic on failure — the store is
cleared and the active id reset to `1` before the file is read, so a
failed load loses the previous experiments and leaves the state
`({}, 1)`; on success the previous state is replaced wholesale by the
loaded content, independent of what it was. -/
theorem open_data_full_spec (prev : Store × ℤ) :
    open_data_full none prev = ([], 1) ∧
    ∀ rows, open_data_full (some rows) prev = open_data rows :=
  ⟨rfl, fun _ => rfl⟩

/-- C8: stopping an experiment computes the count/mean summary only when
the active experiment's sequence is non-empty; whenever a summary is
produced, its divisor is the sample count, which is positive — the mean of
an empty sequence (a division by zero) is never attempted. -/
theorem stop_experiment_no_empty_mean (st : Store) (cur : ℤ) :
    (getDStore st cur = [] → stop_experiment_summary st cur = none) ∧
    ∀ c m, stop_experiment_summary st cur = some (c, m) →
      getDStore st cur ≠ [] ∧ 0 < c ∧ c = (getDStore st cur).length ∧
      m = ((getDStore st cur).map Prod.snd).sum / (c : ℚ) := by
  constructor
  · intro h
    simp [stop_experiment_summary, h]
  · intro c m hsome
    unfold stop_experiment_summary at hsome
    by_cases h : (getDStore st cur).isEmpty
    · simp [h] at hsome
    · have hne : getDStore st cur ≠ [] := by
        simpa [List.isEmpty_iff] using h
      rw [if_neg (by simpa using h)] at hsome
      simp only [Option.some_inj, Prod.mk.injEq] at hsome
      obtain ⟨hc, hm⟩ := hsome
      refine ⟨hne, ?_, ?_, ?_⟩
      · rw [← hc] at *
        simp only [List.length_map] at *
        exact List.length_pos.mpr hne
      · rw [← hc]
        simp
      · rw [← hm, ← hc]

/-- Witness for C8 on the empty store: experiment 1 has no samples, so no
summary is produced. -/
theorem stop_experiment_no_empty_mean_witness :
    stop_experiment_summary [] 1 = none :=
  (stop_experiment_no_empty_mean [] 1).1 rfl

/-! ## The moving-average smoother -/

/-- `moving_average(data, window_size=5)` from `ver8.py` lines 59–70.
`stop` is the variable Python calls `end` (a Lean keyword); `i - window_size / 2`
in `ℕ` is Python's `max(0, i - window_size // 2)`. -/
def moving_average (data : List ℚ) (window_size : ℕ := 5) : List ℚ :=
  if data.length ≤ 1 then data
  else
    (List.range data.length).map fun i =>
      let start := i - window_size / 2
      let stop := min data.length (i + window_size / 2 + 1)
      let window := (data.drop start).take (stop - start)
      window.sum / (window.length : ℚ)

/-- The Python slice `data[s:e]` (for `0 ≤ s ≤ e`). -/
def pySlice (data : List ℚ) (s e : ℕ) : List ℚ := (data.drop s).take (e - s)

/-- Python's `min` over a nonempty list (`0` only for the empty list). -/
def listMin : List ℚ → ℚ
  | [] => 0
  | x :: xs => xs.foldl min x

/-- Python's `max` over a nonempty list (`0` only for the empty list). -/
def listMax : List ℚ → ℚ
  | [] => 0
  | x :: xs => xs.foldl max x

theorem foldl_min_le_init (xs : List ℚ) : ∀ a : ℚ, xs.foldl min a ≤ a := by
  induction xs with
  | nil => intro a; simp
  | cons x xs ih =>
    intro a
    simp only [List.foldl_cons]
    exact le_trans (ih (min a x)) (min_le_left a x)

theorem foldl_min_le_mem (xs : List ℚ) : ∀ a x, x ∈ xs → xs.foldl min a ≤ x := by
  induction xs with
  | nil => simp
  | cons y ys ih =>
    intro a x hx
    simp only [List.foldl_cons]
    rcases List.mem_cons.mp hx with rfl | hx
    · exact le_trans (foldl_min_le_init ys (min a x)) (min_le_right a x)
    · exact ih _ x hx

theorem init_le_foldl_max (xs : List ℚ) : ∀ a : ℚ, a ≤ xs.foldl max a := by
  induction xs with
  | nil => intro a; simp
  | cons x xs ih =>
    intro a
    simp only [List.foldl_cons]
    exact le_trans (le_max_left a x) (ih (max a x))

theorem mem_le_foldl_max (xs : List ℚ) : ∀ a x, x ∈ xs → x ≤ xs.foldl max a := by
  induction xs with
  | nil => simp
  | cons y ys ih =>
    intro a x hx
    simp only [List.foldl_cons]
    rcases List.mem_cons.mp hx with rfl | hx
    · exact le_trans (le_max_right a x) (init_le_foldl_max ys (max a x))
    · exact ih _ x hx

theorem listMin_le_mem (l : List ℚ) (x : ℚ) (hx : x ∈ l) : listMin l ≤ x := by
  rcases l with _ | ⟨y, ys⟩
  · cases hx
  · rcases List.mem_cons.mp hx with rfl | hx
    · exact foldl_min_le_init ys x
    · exact foldl_min_le_mem ys y x hx

theorem mem_le_listMax (l : List ℚ) (x : ℚ) (hx : x ∈ l) : x ≤ listMax l := by
  rcases l with _ | ⟨y, ys⟩
  · cases hx
  · rcases List.mem_cons.mp hx with rfl | hx
    · exact init_le_foldl_max ys x
    · exact mem_le_foldl_max ys y x hx

theorem length_mul_le_sum (l : List ℚ) (lo : ℚ) (h : ∀ y ∈ l, lo ≤ y) :
    (l.length : ℚ) * lo ≤ l.sum := by
  induction l with
  | nil => simp
  | cons y ys ih =>
    simp only [List.length_cons, List.sum_cons]
    have h1 := ih fun z hz => h z (List.mem_cons_of_mem _ hz)
    have h2 := h y (List.mem_cons_self _ _)
    push_cast
    calc ((ys.length : ℚ) + 1) * lo = (ys.length : ℚ) * lo + lo := by ring
    _ ≤ ys.sum + y := by linarith
    _ = y + ys.sum := by ring

theorem sum_le_length_mul (l : List ℚ) (hi : ℚ) (h : ∀ y ∈ l, y ≤ hi) :
    l.sum ≤ (l.length : ℚ) * hi := by
  induction l with
  | nil => simp
  | cons y ys ih =>
    simp only [List.length_cons, List.sum_cons]
    have h1 := ih fun z hz => h z (List.mem_cons_of_mem _ hz)
    have h2 := h y (List.mem_cons_self _ _)
    push_cast
    calc y + ys.sum ≤ hi + (ys.length : ℚ) * hi := by linarith
    _ = ((ys.length : ℚ) + 1) * hi := by ring

theorem listMean_bounds (l : List ℚ) (hne : l ≠ []) (lo hi : ℚ)
    (hlo : ∀ y ∈ l, lo ≤ y) (hhi : ∀ y ∈ l, y ≤ hi) :
    lo ≤ listMean l ∧ listMean l ≤ hi := by
  have hlen : 0 < (l.length : ℚ) := by
    exact_mod_cast List.length_pos.mpr hne
  unfold listMean
  constructor
  · rw [le_div_iff₀ hlen]
    have := length_mul_le_sum l lo hlo
    linarith
  · rw [div_le_iff₀ hlen]
    have := sum_le_length_mul l hi hhi
    linarith

theorem pySlice_subset (data : List ℚ) (s e : ℕ) :
    ∀ x ∈ pySlice data s e, x ∈ data := by
  intro x hx
  unfold pySlice at hx
  exact List.mem_of_mem_drop (List.mem_of_mem_take hx)

theorem pySlice_length (data : List ℚ) (s e : ℕ) :
    (pySlice data s e).length = min (e - s) (data.length - s) := by
  simp [pySlice]

/-- C4: for every data list and `window_size ≥ 1`, `moving_average` keeps
the length; for non-empty data the element at index `i` is the mean of the
Python slice `data[max(0, i − w÷2) : min(len, i + w÷2 + 1)]` (integer
division), and every output element lies within `[min(data), max(data)]`. -/
theorem moving_average_spec (data : List ℚ) (window_size : ℕ)
    (hws : 1 ≤ window_size) :
    (moving_average data window_size).length = data.length ∧
    (∀ i, i < data.length →
      (moving_average data window_size).getD i 0 =
        listMean (pySlice data (i - window_size / 2)
          (min data.length (i + window_size / 2 + 1)))) ∧
    (data ≠ [] → ∀ x ∈ moving_average data window_size,
      listMin data ≤ x ∧ x ≤ listMax data) := by
  have slice_mem : ∀ i, i < data.length →
      ∀ x ∈ pySlice data (i - window_size / 2)
        (min data.length (i + window_size / 2 + 1)), x ∈ data :=
    fun i _ => pySlice_subset data _ _
  have slice_ne : ∀ i, i < data.length →
      pySlice data (i - window_size / 2)
        (min data.length (i + window_size / 2 + 1)) ≠ [] := by
    intro i hi
    have hlen := pySlice_length data (i - window_size / 2)
      (min data.length (i + window_size / 2 + 1))
    intro hnil
    rw [hnil] at hlen
    simp only [List.length_nil] at hlen
    omega
  by_cases hsz : data.length ≤ 1
  · rcases data with _ | ⟨x, xs⟩
    · refine ⟨rfl, ?_, ?_⟩
      · intro i hi
        simp at hi
      · intro h
        exact absurd rfl h
    · rcases xs with _ | ⟨y, ys⟩
      · have hma : moving_average [x] window_size = [x] := by
          simp [moving_average]
        refine ⟨by rw [hma], ?_, ?_⟩
        · intro i hi
          have hi0 : i = 0 := by
            simp only [List.length_singleton] at hi
            omega
          subst hi0
          have h1 : min ([x].length) (0 + window_size / 2 + 1) = 1 := by
            simp only [List.length_singleton]
            omega
          rw [hma, h1]
          have h0 : (0 : ℕ) - window_size / 2 = 0 := by omega
          rw [h0]
          simp [pySlice, listMean]
        · intro _ z hz
          rw [hma] at hz
          exact ⟨listMin_le_mem _ z hz, mem_le_listMax _ z hz⟩
      · simp at hsz
  · have hma : moving_average data window_size =
        (List.range data.length).map fun i =>
          let start := i - window_size / 2
          let stop := min data.length (i + window_size / 2 + 1)
          let window := (data.drop start).take (stop - start)
          window.sum / (window.length : ℚ) := by
      unfold moving_average
      rw [if_neg hsz]
    have hptwise : ∀ i, i < data.length →
        (moving_average data window_size).getD i 0 =
          listMean (pySlice data (i - window_size / 2)
            (min data.length (i + window_size / 2 + 1))) := by
      intro i hi
      rw [hma, List.getD_eq_getElem?_getD, List.getElem?_map, List.getElem?_range hi]
      simp only [Option.map_some, Option.getD_some]
      rfl
    refine ⟨by rw [hma]; simp, hptwise, ?_⟩
    intro hne z hz
    rw [hma] at hz
    obtain ⟨i, hir, hfz⟩ := List.mem_map.mp hz
    have hi : i < data.length := List.mem_range.mp hir
    have hz' : z = listMean (pySlice data (i - window_size / 2)
        (min data.length (i + window_size / 2 + 1))) := by
      rw [← hfz]
      rfl
    have hb := listMean_bounds _ (slice_ne i hi) (listMin data) (listMax data)
      (fun y hy => listMin_le_mem data y (slice_mem i hi y hy))
      (fun y hy => mem_le_listMax data y (slice_mem i hi y hy))
    rw [hz']
    exact hb

/-- Witness for C4 at `data = [1, 3]`, `window_size = 1`: the output has
length 2 and its first element is the mean of the one-element slice. -/
theorem moving_average_spec_witness :
    (moving_average [(1 : ℚ), 3] 1).length = 2 ∧
    ∀ x ∈ moving_average [(1 : ℚ), 3] 1, listMin [(1 : ℚ), 3] ≤ x := by
  have h := moving_average_spec [(1 : ℚ), 3] 1 (by norm_num)
  refine ⟨by simpa using h.1, fun x hx => (h.2.2 (by simp) x hx).1⟩

theorem loadRow_not_wellFormed (acc : Store × ℤ) (row : Row)
    (h : wellFormedRow row = false) : loadRow acc row = acc := by
  unfold loadRow
  by_cases h3 : row.length < 3
  · rw [if_pos h3]
  · rw [if_neg h3]
    unfold wellFormedRow at h
    rcases he : parseExpField (row.getD 0 .raw) with _ | e
    · simp [he]
    · rcases ht : parseFloatField (row.getD 1 .raw) with _ | t
      · simp [he, ht]
      · rcases hv : parseFloatField (row.getD 2 .raw) with _ | v
        · simp [he, ht, hv]
        · exfalso
          rw [he, ht, hv] at h
          simp [Nat.not_lt.mp h3] at h

theorem storeSize_setdefaultAppend (st : Store) (k : ℤ) (s : Sample) :
    storeSize (setdefaultAppend st k s) = storeSize st + 1 := by
  induction st with
  | nil => simp [setdefaultAppend, storeSize]
  | cons p rest ih =>
    obtain ⟨k', l⟩ := p
    by_cases hk : k' = k
    · subst hk
      have hred : setdefaultAppend ((k', l) :: rest) k' s = (k', l ++ [s]) :: rest := by
        simp [setdefaultAppend]
      rw [hred]
      simp only [storeSize, List.map_cons, List.sum_cons, List.length_append,
        List.length_cons, List.length_nil]
      omega
    · simp only [setdefaultAppend, if_neg hk, storeSize, List.map_cons, List.sum_cons] at ih ⊢
      omega

theorem loadRow_wellFormed_size (acc : Store × ℤ) (row : Row)
    (h : wellFormedRow row = true) :
    storeSize (loadRow acc row).1 = storeSize acc.1 + 1 := by
  unfold wellFormedRow at h
  simp only [Bool.and_eq_true, decide_eq_true_eq, Option.isSome_iff_exists] at h
  obtain ⟨⟨⟨h3, e, he⟩, t, ht⟩, v, hv⟩ := h
  unfold loadRow
  rw [if_neg (Nat.not_lt.mpr h3)]
  simp only [he, ht, hv]
  exact storeSize_setdefaultAppend _ _ _

theorem foldl_loadRow_filter (rows : List Row) : ∀ acc : Store × ℤ,
    rows.foldl loadRow acc = (rows.filter wellFormedRow).foldl loadRow acc := by
  induction rows with
  | nil => intro acc; rfl
  | cons r rs ih =>
    intro acc
    by_cases h : wellFormedRow r = true
    · simp only [List.foldl_cons, List.filter_cons, h, if_pos trivial]
      exact ih _
    · have hf : wellFormedRow r = false := Bool.eq_false_iff.mpr h
      simp only [List.foldl_cons, List.filter_cons, hf, Bool.false_eq_true, if_neg h,
        loadRow_not_wellFormed acc r hf]
      exact ih _

theorem foldl_loadRow_size (rows : List Row) : ∀ acc : Store × ℤ,
    storeSize (rows.foldl loadRow acc).1 =
      storeSize acc.1 + (rows.filter wellFormedRow).length := by
  induction rows with
  | nil => intro acc; simp
  | cons r rs ih =>
    intro acc
    by_cases h : wellFormedRow r = true
    · simp only [List.foldl_cons, List.filter_cons, h, if_pos trivial, List.length_cons]
      rw [ih, loadRow_wellFormed_size acc r h]
      omega
    · have hf : wellFormedRow r = false := Bool.eq_false_iff.mpr h
      simp only [List.foldl_cons, List.filter_cons, hf, Bool.false_eq_true, if_neg h,
        loadRow_not_wellFormed acc r hf]
      exact ih _

/-- C7: loading skips exactly the malformed data rows (fewer than three
fields, or an unparsable experiment label, timestamp, or value field):
the result equals the result of loading only the well-formed rows, and
every well-formed row contributes exactly one stored sample — the total
number of stored samples is the number of well-formed data rows.  (The
fold is a total function: no row aborts the load.) -/
theorem open_data_skips_malformed (rows : List Row) :
    open_data rows = loadRows ((rows.drop 1).filter wellFormedRow) ∧
    storeSize (open_data rows).1 = ((rows.drop 1).filter wellFormedRow).length := by
  constructor
  · unfold open_data loadRows
    exact foldl_loadRow_filter _ _
  · unfold open_data loadRows
    rw [foldl_loadRow_size]
    simp [storeSize]

/-! ## The nearest-point hover query of the plot -/

/-- One entry of `all_points` in `create_plot`:
`(x, y, t_off, val, exp_num)` — canvas coordinates, time offset, value,
and experiment number. -/
structure PlotPoint where
  x : ℚ
  y : ℚ
  t : ℚ
  v : ℚ
  exp : ℤ
deriving DecidableEq

/-- The square of `math.hypot(event.x - x, event.y - y)`. -/
def dist2 (ex ey : ℚ) (p : PlotPoint) : ℚ := (ex - p.x) ^ 2 + (ey - p.y) ^ 2

/-- One iteration of the `on_motion` loop (`ver8.py` lines 641–648), on the
state `(closest, min_dist)`; the source compares
`math.hypot(...) < min_dist` — embedded on squares, `15² = 225`. -/
def nearestStep (ex ey : ℚ) (acc : Option PlotPoint × ℚ) (p : PlotPoint) :
    Option PlotPoint × ℚ :=
  if dist2 ex ey p < acc.2 then (some p, dist2 ex ey p) else acc

/-- The point `on_motion` highlights for a query at `(ex, ey)`: the loop
starts from `closest = None`, `min_dist = 15` and keeps the strictly
closest in-radius point seen so far; `none` means no point is within the
radius. -/
def on_motion_nearest (points : List PlotPoint) (ex ey : ℚ) : Option PlotPoint :=
  (points.foldl (nearestStep ex ey) (none, 225)).1

/-- The Euclidean distance `math.hypot(event.x - x, event.y - y)` itself. -/
noncomputable def edist (ex ey : ℚ) (p : PlotPoint) : ℝ := Real.sqrt ((dist2 ex ey p : ℝ))

theorem dist2_nonneg (ex ey : ℚ) (p : PlotPoint) : 0 ≤ dist2 ex ey p := by
  unfold dist2
  positivity

theorem edist_lt_radius_iff (ex ey : ℚ) (p : PlotPoint) :
    edist ex ey p < 15 ↔ dist2 ex ey p < 225 := by
  unfold edist
  rw [show (15 : ℝ) = Real.sqrt 225 by
    rw [show (225 : ℝ) = 15 ^ 2 by norm_num, Real.sqrt_sq (by norm_num)]]
  rw [Real.sqrt_lt_sqrt_iff (by exact_mod_cast dist2_nonneg ex ey p)]
  constructor
  · intro h; exact_mod_cast h
  · intro h; exact_mod_cast h

theorem radius_lt_edist_iff (ex ey : ℚ) (p : PlotPoint) :
    (15 : ℝ) < edist ex ey p ↔ (225 : ℚ) < dist2 ex ey p := by
  unfold edist
  rw [show (15 : ℝ) = Real.sqrt 225 by
    rw [show (225 : ℝ) = 15 ^ 2 by norm_num, Real.sqrt_sq (by norm_num)]]
  rw [Real.sqrt_lt_sqrt_iff (by norm_num)]
  constructor
  · intro h; exact_mod_cast h
  · intro h; exact_mod_cast h

theorem edist_le_edist_iff (ex ey : ℚ) (p q : PlotPoint) :
    edist ex ey p ≤ edist ex ey q ↔ dist2 ex ey p ≤ dist2 ex ey q := by
  unfold edist
  rw [Real.sqrt_le_sqrt_iff (by exact_mod_cast dist2_nonneg ex ey q)]
  constructor
  · intro h; exact_mod_cast h
  · intro h; exact_mod_cast h

theorem nearest_foldl_spec (ex ey : ℚ) (pts : List PlotPoint) :
    ∀ (acc : Option PlotPoint) (m : ℚ),
    (pts.foldl (nearestStep ex ey) (acc, m)).2 ≤ m ∧
    (∀ p ∈ pts, (pts.foldl (nearestStep ex ey) (acc, m)).2 ≤ dist2 ex ey p) ∧
    (pts.foldl (nearestStep ex ey) (acc, m) = (acc, m) ∨
      ∃ r, (pts.foldl (nearestStep ex ey) (acc, m)).1 = some r ∧ r ∈ pts ∧
        dist2 ex ey r = (pts.foldl (nearestStep ex ey) (acc, m)).2 ∧
        (pts.foldl (nearestStep ex ey) (acc, m)).2 < m) := by
  induction pts with
  | nil =>
    intro acc m
    exact ⟨le_refl m, by simp, Or.inl rfl⟩
  | cons p ps ih =>
    intro acc m
    simp only [List.foldl_cons]
    by_cases h : dist2 ex ey p < m
    · have hstep : nearestStep ex ey (acc, m) p = (some p, dist2 ex ey p) := by
        simp [nearestStep, h]
      rw [hstep]
      obtain ⟨h1, h2, h3⟩ := ih (some p) (dist2 ex ey p)
      refine ⟨le_of_lt (lt_of_le_of_lt h1 h), ?_, ?_⟩
      · intro q hq
        rcases List.mem_cons.mp hq with rfl | hq
        · exact h1
        · exact h2 q hq
      · rcases h3 with heq | ⟨r, hr1, hr2, hr3, hr4⟩
        · refine Or.inr ⟨p, ?_, List.mem_cons_self _ _, ?_, ?_⟩
          · rw [heq]
          · rw [heq]
          · rw [heq]
            exact h
        · exact Or.inr ⟨r, hr1, List.mem_cons_of_mem _ hr2, hr3, lt_trans hr4 h⟩
    · have hstep : nearestStep ex ey (acc, m) p = (acc, m) := by
        simp [nearestStep, h]
      rw [hstep]
      obtain ⟨h1, h2, h3⟩ := ih acc m
      refine ⟨h1, ?_, ?_⟩
      · intro q hq
        rcases List.mem_cons.mp hq with rfl | hq
        · exact le_trans h1 (not_lt.mp h)
        · exact h2 q hq
      · rcases h3 with heq | ⟨r, hr1, hr2, hr3, hr4⟩
        · exact Or.inl heq
        · exact Or.inr ⟨r, hr1, List.mem_cons_of_mem _ hr2, hr3, hr4⟩

/-- C9: for every set of plotted points and drawing-space query: if every
point is farther than the 15-pixel radius the query returns `none`; a
query exactly at the projected coordinate of a (positionally unique)
plotted point returns that point; whatever point is returned is an
in-radius point at minimal Euclidean distance among all plotted points;
and whenever some point is within the radius, one is returned. -/
theorem on_motion_nearest_spec (points : List PlotPoint) (ex ey : ℚ) :
    ((∀ p ∈ points, (15 : ℝ) < edist ex ey p) →
      on_motion_nearest points ex ey = none) ∧
    (∀ p ∈ points, p.x = ex → p.y = ey →
      (∀ q ∈ points, q.x = ex → q.y = ey → q = p) →
      on_motion_nearest points ex ey = some p) ∧
    (∀ r, on_motion_nearest points ex ey = some r →
      r ∈ points ∧ edist ex ey r < 15 ∧
      ∀ p ∈ points, edist ex ey r ≤ edist ex ey p) ∧
    ((∃ p ∈ points, edist ex ey p < 15) →
      ∃ r, on_motion_nearest points ex ey = some r) := by
  obtain ⟨h1, h2, h3⟩ := nearest_foldl_spec ex ey points none 225
  have hsome : ∀ r, on_motion_nearest points ex ey = some r →
      r ∈ points ∧ dist2 ex ey r < 225 ∧
      ∀ p ∈ points, dist2 ex ey r ≤ dist2 ex ey p := by
    intro r hr
    unfold on_motion_nearest at hr
    rcases h3 with heq | ⟨r', hr1, hr2, hr3, hr4⟩
    · rw [heq] at hr
      cases hr
    · rw [hr1] at hr
      obtain rfl : r' = r := by injection hr
      refine ⟨hr2, by rw [hr3]; exact hr4, ?_⟩
      intro p hp
      rw [hr3]
      exact h2 p hp
  have hexists : (∃ p ∈ points, dist2 ex ey p < 225) →
      ∃ r, on_motion_nearest points ex ey = some r := by
    rintro ⟨p, hp, hd⟩
    unfold on_motion_nearest
    rcases h3 with heq | ⟨r', hr1, _, _, _⟩
    · exfalso
      have := h2 p hp
      rw [heq] at this
      exact absurd hd (not_lt.mpr this)
    · exact ⟨r', hr1⟩
  refine ⟨?_, ?_, ?_, ?_⟩
  · intro hfar
    by_contra hne
    obtain ⟨r, hr⟩ := Option.ne_none_iff_exists'.mp hne
    obtain ⟨hmem, hlt, _⟩ := hsome r hr
    exact absurd hlt (not_lt.mpr (le_of_lt ((radius_lt_edist_iff ex ey r).mp (hfar r hmem))))
  · intro p hp hx hy huniq
    have hd0 : dist2 ex ey p = 0 := by
      unfold dist2
      rw [hx, hy]
      ring
    obtain ⟨r, hr⟩ := hexists ⟨p, hp, by rw [hd0]; norm_num⟩
    obtain ⟨hmem, _, hmin⟩ := hsome r hr
    have hr0 : dist2 ex ey r = 0 :=
      le_antisymm (by rw [← hd0]; exact hmin p hp) (dist2_nonneg ex ey r)
    have hrx : r.x = ex ∧ r.y = ey := by
      unfold dist2 at hr0
      constructor
      · nlinarith [sq_nonneg (ex - r.x), sq_nonneg (ey - r.y)]
      · nlinarith [sq_nonneg (ex - r.x), sq_nonneg (ey - r.y)]
    rw [huniq r hmem hrx.1 hrx.2] at hr
    exact hr
  · intro r hr
    obtain ⟨hmem, hlt, hmin⟩ := hsome r hr
    exact ⟨hmem, (edist_lt_radius_iff ex ey r).mpr hlt,
      fun p hp => (edist_le_edist_iff ex ey r p).mpr (hmin p hp)⟩
  · rintro ⟨p, hp, hd⟩
    exact hexists ⟨p, hp, (edist_lt_radius_iff ex ey p).mp hd⟩

/-- Witness for C9: a single point plotted at the origin, queried exactly
at the origin, is returned. -/
theorem on_motion_nearest_spec_witness :
    on_motion_nearest [⟨0, 0, 0, 42, 1⟩] 0 0 = some ⟨0, 0, 0, 42, 1⟩ := by
  have h := (on_motion_nearest_spec [⟨0, 0, 0, 42, 1⟩] 0 0).2.1
  exact h ⟨0, 0, 0, 42, 1⟩ (by simp) rfl rfl (by
    intro q hq _ _
    simpa using hq)

/-! ## The save/load round-trip (C3) -/

theorem setdefaultAppend_new (st : Store) (k : ℤ) (s : Sample)
    (h : lookupStore st k = none) :
    setdefaultAppend st k s = st ++ [(k, [s])] := by
  induction st with
  | nil => rfl
  | cons p rest ih =>
    obtain ⟨k', l⟩ := p
    by_cases hk : k' = k
    · subst hk
      simp [lookupStore] at h
    · simp only [lookupStore, if_neg hk] at h
      simp only [setdefaultAppend, if_neg hk, List.cons_append]
      rw [ih h]

theorem setdefaultAppend_last (st : Store) (k : ℤ) (l : List Sample) (s : Sample)
    (h : lookupStore st k = none) :
    setdefaultAppend (st ++ [(k, l)]) k s = st ++ [(k, l ++ [s])] := by
  induction st with
  | nil => simp [setdefaultAppend]
  | cons p rest ih =>
    obtain ⟨k', l'⟩ := p
    by_cases hk : k' = k
    · subst hk
      simp [lookupStore] at h
    · simp only [lookupStore, if_neg hk] at h
      simp only [List.cons_append, setdefaultAppend, if_neg hk, List.append_eq]
      rw [ih h]

theorem loadRow_rowOf (st : Store) (c k : ℤ) (s : Sample) :
    loadRow (st, c) (rowOf k s) =
      (setdefaultAppend st k s, if c ≤ k then k + 1 else c) := rfl

theorem foldl_loadRow_sameKey (k : ℤ) (ss : List Sample) :
    ∀ (st : Store) (l : List Sample), lookupStore st k = none →
    (ss.map (rowOf k)).foldl loadRow (st ++ [(k, l)], k + 1) =
      (st ++ [(k, l ++ ss)], k + 1) := by
  induction ss with
  | nil =>
    intro st l _
    simp
  | cons s ss ih =>
    intro st l h
    rw [List.map_cons, List.foldl_cons, loadRow_rowOf]
    rw [setdefaultAppend_last st k l s h, if_neg (by omega)]
    rw [ih st (l ++ [s]) h]
    simp

theorem foldl_loadRow_group (k : ℤ) (s : Sample) (ss : List Sample)
    (st : Store) (c : ℤ) (h : lookupStore st k = none) (hc : c ≤ k) :
    ((s :: ss).map (rowOf k)).foldl loadRow (st, c) =
      (st ++ [(k, s :: ss)], k + 1) := by
  rw [List.map_cons, List.foldl_cons, loadRow_rowOf,
    setdefaultAppend_new st k s h, if_pos hc]
  rw [foldl_loadRow_sameKey k ss st [s] h]
  rfl

theorem idsOf_append_single (st : Store) (k : ℤ) (l : List Sample) :
    idsOf (st ++ [(k, l)]) = idsOf st ++ [k] := by
  simp [idsOf]

theorem loadRows_groups (f : ℤ → List Sample) : ∀ (ks : List ℤ) (st : Store) (c : ℤ),
    ks.Pairwise (· < ·) →
    (∀ k ∈ ks, lookupStore st k = none) →
    (∀ k ∈ ks, c ≤ k) →
    (∀ k ∈ ks, f k ≠ []) →
    (ks.flatMap fun k => (f k).map (rowOf k)).foldl loadRow (st, c) =
      (st ++ ks.map (fun k => (k, f k)), ks.foldl (fun _ k => k + 1) c) := by
  intro ks
  induction ks with
  | nil =>
    intro st c _ _ _ _
    simp
  | cons k ks ih =>
    intro st c hpw hlook hc hf
    have hfk : f k ≠ [] := hf k (List.mem_cons_self _ _)
    obtain ⟨s, ss, hsss⟩ := List.exists_cons_of_ne_nil hfk
    have hstep : ((f k).map (rowOf k)).foldl loadRow (st, c) =
        (st ++ [(k, f k)], k + 1) := by
      rw [hsss]
      exact foldl_loadRow_group k s ss st c (hlook k (List.mem_cons_self _ _))
        (hc k (List.mem_cons_self _ _))
    have hflat : ((k :: ks).flatMap fun j => (f j).map (rowOf j)) =
        (f k).map (rowOf k) ++ (ks.flatMap fun j => (f j).map (rowOf j)) := rfl
    rw [hflat, List.foldl_append, hstep]
    have hlook' : ∀ j ∈ ks, lookupStore (st ++ [(k, f k)]) j = none := by
      intro j hj
      rw [lookupStore_none_iff, idsOf_append_single]
      have h1 : j ∉ idsOf st := (lookupStore_none_iff st j).mp
        (hlook j (List.mem_cons_of_mem _ hj))
      have h2 : k < j := (List.pairwise_cons.mp hpw).1 j hj
      simp only [List.mem_append, List.mem_singleton]
      rintro (hcase | hcase)
      · exact h1 hcase
      · omega
    have hc' : ∀ j ∈ ks, k + 1 ≤ j := by
      intro j hj
      have := (List.pairwise_cons.mp hpw).1 j hj
      omega
    rw [ih (st ++ [(k, f k)]) (k + 1) (List.pairwise_cons.mp hpw).2 hlook' hc'
      (fun j hj => hf j (List.mem_cons_of_mem _ hj))]
    simp

theorem foldl_bump (ks : List ℤ) : ∀ c : ℤ,
    ks.foldl (fun _ k => k + 1) c = ks.getLastD (c - 1) + 1 := by
  induction ks with
  | nil =>
    intro c
    simp only [List.foldl_nil, List.getLastD_nil]
    omega
  | cons k ks ih =>
    intro c
    rw [List.foldl_cons, ih (k + 1), List.getLastD_cons]
    norm_num

theorem le_foldr_max (l : List ℤ) (x : ℤ) (hx : x ∈ l) : ∀ a : ℤ, x ≤ l.foldr max a := by
  induction l with
  | nil => cases hx
  | cons y ys ih =>
    intro a
    rw [List.foldr_cons]
    rcases List.mem_cons.mp hx with rfl | hx
    · exact le_max_left _ _
    · exact le_trans (ih hx a) (le_max_right _ _)

theorem foldr_max_cases (l : List ℤ) (a : ℤ) : l.foldr max a = a ∨ l.foldr max a ∈ l := by
  induction l with
  | nil => exact Or.inl rfl
  | cons y ys ih =>
    rw [List.foldr_cons]
    rcases max_choice y (ys.foldr max a) with h | h
    · rw [h]
      exact Or.inr (List.mem_cons_self _ _)
    · rw [h]
      rcases ih with h' | h'
      · exact Or.inl h'
      · exact Or.inr (List.mem_cons_of_mem _ h')

theorem getLastD_mem (ks : List ℤ) : ∀ d : ℤ, ks ≠ [] → ks.getLastD d ∈ ks := by
  induction ks with
  | nil =>
    intro d h
    exact absurd rfl h
  | cons k ks ih =>
    intro d _
    rw [List.getLastD_cons]
    by_cases hks : ks = []
    · subst hks
      simp
    · exact List.mem_cons_of_mem _ (ih k hks)

theorem mem_le_getLastD (ks : List ℤ) :
    ∀ d : ℤ, ks.Pairwise (· ≤ ·) → ∀ x ∈ ks, x ≤ ks.getLastD d := by
  induction ks with
  | nil =>
    intro d _ x hx
    cases hx
  | cons k ks ih =>
    intro d hpw x hx
    rw [List.getLastD_cons]
    rcases List.mem_cons.mp hx with rfl | hx
    · by_cases hks : ks = []
      · subst hks
        simp
      · exact (List.pairwise_cons.mp hpw).1 _ (getLastD_mem ks x hks)
    · exact ih k (List.pairwise_cons.mp hpw).2 x hx

theorem lookup_graph (g : ℤ → List Sample) (ks : List ℤ) (j : ℤ) :
    lookupStore (ks.map fun k => (k, g k)) j =
      if j ∈ ks then some (g j) else none := by
  induction ks with
  | nil => simp [lookupStore]
  | cons k ks ih =>
    rw [List.map_cons]
    by_cases hk : k = j
    · subst hk
      simp [lookupStore]
    · have hjk : ¬ j = k := fun h => hk h.symm
      simp only [lookupStore, if_neg hk, ih, List.mem_cons]
      by_cases hj : j ∈ ks
      · rw [if_pos hj, if_pos (Or.inr hj)]
      · rw [if_neg hj, if_neg (show ¬(j = k ∨ j ∈ ks) from by
          rintro (h | h)
          exacts [hjk h, hj h])]

theorem lookup_mem (st : Store) (j : ℤ) (l : List Sample)
    (h : lookupStore st j = some l) : (j, l) ∈ st := by
  induction st with
  | nil => cases h
  | cons p rest ih =>
    obtain ⟨k, l'⟩ := p
    by_cases hk : k = j
    · subst hk
      have hself : lookupStore ((k, l') :: rest) k = some l' := by simp [lookupStore]
      rw [hself] at h
      injection h with h
      subst h
      exact List.mem_cons_self _ _
    · simp only [lookupStore, if_neg hk] at h
      exact List.mem_cons_of_mem _ (ih h)

/-- C3 counterexample: an experiment whose sample sequence is empty (as
`start_experiment` leaves behind when no sample is accepted) is dropped by
the round-trip: saving the store `{1: []}` writes only the header, so
loading back yields no experiment `1` at all and next active id `1`, not
`max(id) + 1 = 2`. -/
theorem save_open_roundtrip_counterexample :
    (1 : ℤ) ∉ idsOf (open_data (save_all_data [(1, ([] : List Sample))])).1 ∧
    (open_data (save_all_data [(1, ([] : List Sample))])).2 = 1 := by
  constructor
  · simp [save_all_data, open_data, loadRows, idsOf, headerRow, getDStore, lookupStore]
  · rfl

/-- C3 amended: for every store with distinct positive experiment ids in
which every experiment's sample sequence is NON-EMPTY, saving the whole
store to CSV and loading it back yields the same set of experiment ids,
the same ordered `(timestamp, value)` pairs per id (exactly — the float
round-trip is lossless), and next active id `max(id) + 1`. -/
theorem save_open_roundtrip (store : Store)
    (hnd : (idsOf store).Nodup)
    (hpos : ∀ k ∈ idsOf store, 1 ≤ k)
    (hne : store ≠ [])
    (hnonempty : ∀ p ∈ store, p.2 ≠ []) :
    (∀ j : ℤ, j ∈ idsOf (open_data (save_all_data store)).1 ↔ j ∈ idsOf store) ∧
    (∀ j : ℤ, lookupStore (open_data (save_all_data store)).1 j = lookupStore store j) ∧
    (open_data (save_all_data store)).2 = maxId store + 1 := by
  have hperm := List.perm_insertionSort (· ≤ ·) (idsOf store)
  have hmem : ∀ j, j ∈ List.insertionSort (· ≤ ·) (idsOf store) ↔ j ∈ idsOf store :=
    fun j => hperm.mem_iff
  have hsortedle : (List.insertionSort (· ≤ ·) (idsOf store)).Pairwise (· ≤ ·) :=
    List.sorted_insertionSort _ _
  have hsortednd : (List.insertionSort (· ≤ ·) (idsOf store)).Nodup :=
    hperm.nodup_iff.mpr hnd
  have hsortedlt : (List.insertionSort (· ≤ ·) (idsOf store)).Pairwise (· < ·) :=
    (hsortedle.and hsortednd).imp (fun h => lt_of_le_of_ne h.1 h.2)
  have hgetne : ∀ k ∈ List.insertionSort (· ≤ ·) (idsOf store),
      getDStore store k ≠ [] := by
    intro k hk
    have hkid : k ∈ idsOf store := (hmem k).mp hk
    have hlook : lookupStore store k ≠ none :=
      fun h => ((lookupStore_none_iff store k).mp h) hkid
    obtain ⟨l, hl⟩ := Option.ne_none_iff_exists'.mp hlook
    have hl2 := hnonempty (k, l) (lookup_mem store k l hl)
    simpa [getDStore, hl] using hl2
  have hfold := loadRows_groups (fun k => getDStore store k)
    (List.insertionSort (· ≤ ·) (idsOf store)) [] 1 hsortedlt
    (fun k _ => rfl)
    (fun k hk => hpos k ((hmem k).mp hk))
    hgetne
  have hres : open_data (save_all_data store) =
      ((List.insertionSort (· ≤ ·) (idsOf store)).map
          (fun k => (k, getDStore store k)),
        (List.insertionSort (· ≤ ·) (idsOf store)).foldl (fun _ k => k + 1) 1) := by
    unfold open_data save_all_data loadRows
    simp only [List.drop_succ_cons, List.drop_nil, List.drop_zero]
    rw [hfold]
    simp
  have hids : idsOf ((List.insertionSort (· ≤ ·) (idsOf store)).map
      (fun k => (k, getDStore store k))) = List.insertionSort (· ≤ ·) (idsOf store) := by
    simp only [idsOf, List.map_map]
    exact List.map_id _
  have hsortedne : List.insertionSort (· ≤ ·) (idsOf store) ≠ [] := by
    intro h
    have hlen := hperm.length_eq
    rw [h] at hlen
    have : idsOf store = [] := List.length_eq_zero.mp hlen.symm
    exact hne (List.map_eq_nil_iff.mp this)
  refine ⟨?_, ?_, ?_⟩
  · intro j
    rw [hres]
    simp only [hids]
    exact hmem j
  · intro j
    rw [hres]
    simp only
    rw [lookup_graph]
    by_cases hj : j ∈ List.insertionSort (· ≤ ·) (idsOf store)
    · rw [if_pos hj]
      have hkid : j ∈ idsOf store := (hmem j).mp hj
      have hlook : lookupStore store j ≠ none :=
        fun h => ((lookupStore_none_iff store j).mp h) hkid
      obtain ⟨l, hl⟩ := Option.ne_none_iff_exists'.mp hlook
      rw [hl]
      simp [getDStore, hl]
    · rw [if_neg hj]
      have : j ∉ idsOf store := fun h => hj ((hmem j).mpr h)
      exact ((lookupStore_none_iff store j).mpr this).symm
  · rw [hres]
    simp only
    rw [foldl_bump]
    have h11 : (1 : ℤ) - 1 = 0 := by norm_num
    have hL : (List.insertionSort (· ≤ ·) (idsOf store)).getLastD (1 - 1) =
        maxId store := by
      rw [h11]
      have hLmem := getLastD_mem _ 0 hsortedne
      have hLid : (List.insertionSort (· ≤ ·) (idsOf store)).getLastD 0 ∈ idsOf store :=
        (hmem _).mp hLmem
      have hLleM := le_foldr_max (idsOf store) _ hLid 0
      have hMleL : maxId store ≤ (List.insertionSort (· ≤ ·) (idsOf store)).getLastD 0 := by
        rcases foldr_max_cases (idsOf store) 0 with h0 | hM
        · rw [maxId, h0]
          have := hpos _ hLid
          omega
        · exact mem_le_getLastD _ 0 hsortedle _ ((hmem _).mpr hM)
      rw [maxId] at hMleL ⊢
      omega
    rw [hL]

/-- Witness for C3 on the store `{1: [(0, 5)]}`: the round-trip preserves
the lookup of experiment 1 and sets the next active id to 2. -/
theorem save_open_roundtrip_witness :
    lookupStore (open_data (save_all_data [(1, [((0 : ℚ), (5 : ℚ))])])).1 1 =
      lookupStore [(1, [((0 : ℚ), (5 : ℚ))])] 1 ∧
    (open_data (save_all_data [(1, [((0 : ℚ), (5 : ℚ))])])).2 =
      maxId [(1, [((0 : ℚ), (5 : ℚ))])] + 1 := by
  have h := save_open_roundtrip [(1, [((0 : ℚ), (5 : ℚ))])]
    (by simp [idsOf]) (by simp [idsOf]) (by simp)
    (by intro p hp; simp at hp; subst hp; simp)
  exact ⟨h.2.1 1, h.2.2⟩

end ArduinoLogger
